import Mathlib

/-!
# Verification of the transcription/diarization pipeline

A shallow embedding, in Lean, of `scripts/transcribe_senko.py`: the speaker
alignment algorithm (`assign_speakers`), the time formatter (`format_time`),
the transcription copy loop, the speaker summary builder, and the
orchestration flow around conversion, the cancellation gate and diarization.
Times are modelled as rationals (`ℚ`); Python floats are treated as exact
rationals so that the branch structure of the code is preserved exactly.
-/

namespace Senko

/-- A transcript segment, the dict `{"start": .., "end": .., "text": ..}`
produced by the transcription copy loop; the Python key `"end"` is called
`stop` here because `end` is a Lean keyword.  The optional `"speaker"` key
is an `Option String`. -/
structure TranscriptSegment where
  start : ℚ
  stop : ℚ
  text : String
  speaker : Option String
deriving DecidableEq

/-- A diarization interval, the dict `{"start": .., "end": .., "speaker": ..}`
returned by the diarization engine (`merged_segments`). -/
structure SpeakerInterval where
  start : ℚ
  stop : ℚ
  speaker : String
deriving DecidableEq

/-- `max(0.0, min(seg_end, speaker_end) - max(seg_start, speaker_start))`,
the overlap computation from `assign_speakers` (line 242). -/
def overlap (s e : ℚ) (iv : SpeakerInterval) : ℚ :=
  max 0 (min e iv.stop - max s iv.start)

/-- Stable insertion by `start`; `sort_by_start` models
`sorted(speaker_segments, key=lambda s: float(s.get("start", 0)))`
(line 219).  Python's `sorted` is a stable sort; a stable insertion sort
produces the identical list. -/
def ordered_insert (iv : SpeakerInterval) : List SpeakerInterval → List SpeakerInterval
  | [] => [iv]
  | j :: rest => if iv.start ≤ j.start then iv :: j :: rest else j :: ordered_insert iv rest

/-- Stable sort of the speaker intervals by ascending `start` (line 219). -/
def sort_by_start : List SpeakerInterval → List SpeakerInterval
  | [] => []
  | iv :: rest => ordered_insert iv (sort_by_start rest)

/-- The cursor-advance loop of `assign_speakers` (lines 228-232): skip
intervals whose `end` is `≤` the segment's `start`.  The monotone cursor
`speaker_idx` is modelled by keeping only the list suffix it points to. -/
def advance (s : ℚ) : List SpeakerInterval → List SpeakerInterval
  | [] => []
  | iv :: rest => if iv.stop ≤ s then advance s rest else iv :: rest

/-- The probe loop of `assign_speakers` (lines 234-246): scan forward while
`intervals[probe_idx].start < seg_end`, keeping the speaker of the first
interval with strictly greatest overlap.  `b` is `best_overlap` and `best`
is `best_speaker`. -/
def bestOf (s e : ℚ) : List SpeakerInterval → ℚ → Option String → Option String
  | [], _, best => best
  | iv :: rest, b, best =>
    if iv.start < e then
      if b < overlap s e iv then bestOf s e rest (overlap s e iv) (some iv.speaker)
      else bestOf s e rest b best
    else best

/-- `if best_speaker: seg["speaker"] = best_speaker` (lines 248-249).  In
Python a `None` or empty `best_speaker` is falsy and leaves the segment
untouched. -/
def applyBest (seg : TranscriptSegment) : Option String → TranscriptSegment
  | none => seg
  | some sp => if sp = "" then seg else { seg with speaker := some sp }

/-- The `for seg in segments` sweep of `assign_speakers` (lines 222-249),
threading the advanced interval suffix from one segment to the next. -/
def assignLoop : List TranscriptSegment → List SpeakerInterval → List TranscriptSegment
  | [], _ => []
  | seg :: rest, ivs =>
    let ivs' := advance seg.start ivs
    applyBest seg (bestOf seg.start seg.stop ivs' 0 none) :: assignLoop rest ivs'

/-- `assign_speakers(segments, speaker_segments)` (lines 214-251): returns
the input unchanged when the interval list is empty, otherwise runs the
sweep over the intervals sorted by `start`. -/
def assign_speakers (segments : List TranscriptSegment)
    (speaker_segments : List SpeakerInterval) : List TranscriptSegment :=
  if speaker_segments.isEmpty then segments
  else assignLoop segments (sort_by_start speaker_segments)

/-- The maximum overlap between the segment `[s, e]` and any interval of
the list; `0` for the empty list.  This is the specification-side quantity
"maximum temporal overlap between that segment and some interval". -/
def maxOverlap (s e : ℚ) : List SpeakerInterval → ℚ
  | [] => 0
  | iv :: rest => max (overlap s e iv) (maxOverlap s e rest)

/-- Python's `round` on a real value: round half to even (banker's
rounding), as used by `int(round(seconds))` in `format_time` (line 255). -/
def pyRound (q : ℚ) : ℤ :=
  if q - ⌊q⌋ < 1/2 then ⌊q⌋
  else if 1/2 < q - ⌊q⌋ then ⌊q⌋ + 1
  else if ⌊q⌋ % 2 = 0 then ⌊q⌋ else ⌊q⌋ + 1

/-- Zero-padding to two digits, the `f"{..:02d}"` format used by
`format_time` (lines 260-261); its arguments are always `< 60`. -/
def pad2 (n : ℕ) : String := if n < 10 then "0" ++ toString n else toString n

/-- `format_time(seconds)` (lines 254-261): clamp the rounded value at `0`,
then render `M:SS`, or `H:MM:SS` once there is a nonzero hour count. -/
def format_time (seconds : ℚ) : String :=
  let total : ℕ := (max 0 (pyRound seconds)).toNat
  let hours := total / 3600
  let minutes := total % 3600 / 60
  let secs := total % 60
  if 0 < hours then toString hours ++ ":" ++ pad2 minutes ++ ":" ++ pad2 secs
  else toString minutes ++ ":" ++ pad2 secs

/-- The whitespace characters stripped by Python's `str.strip()`. -/
def isPySpace (c : Char) : Bool :=
  c = ' ' || c = '\t' || c = '\n' || c = '\r' || c = '\x0b' || c = '\x0c'

/-- Python's `str.strip()`: remove leading and trailing whitespace. -/
def pytrim (s : String) : String :=
  String.mk (((s.toList.dropWhile isPySpace).reverse.dropWhile isPySpace).reverse)

/-- One step of Python's `str.splitlines()` on newline characters:
`acc` is the current (reversed) line. -/
def splitlinesAux : List Char → List Char → List String
  | [], acc => if acc.isEmpty then [] else [String.mk acc.reverse]
  | c :: rest, acc =>
    if c = '\n' then String.mk acc.reverse :: splitlinesAux rest []
    else splitlinesAux rest (c :: acc)

/-- Python's `str.splitlines()` restricted to `\n` line boundaries (the
boundaries `ffmpeg` diagnostics use): a trailing newline adds no empty
final line and `"".splitlines() == []`. -/
def splitlines (s : String) : List String := splitlinesAux s.toList []

/-- A raw engine segment from `mlx_whisper.transcribe` before the copy
loop: `{"start": .., "end": .., "text": ..}` with unstripped text. -/
structure RawSegment where
  start : ℚ
  stop : ℚ
  text : String
deriving DecidableEq

/-- The pure-punctuation strings discarded by the copy loop (line 171). -/
def punctuation_only : List String := ["!", ".", "?", "...", "！", "。", "？"]

/-- The filter condition of the copy loop (line 171):
`if text and text not in [...]` on the stripped text. -/
def keepSegment (seg : RawSegment) : Bool :=
  decide (pytrim seg.text ≠ "" ∧ pytrim seg.text ∉ punctuation_only)

/-- Python's `round(x, 2)`: banker's rounding at two decimal places. -/
def pyRound2 (q : ℚ) : ℚ := (pyRound (q * 100) : ℚ) / 100

/-- The dict appended by the copy loop (lines 172-178): times rounded to
two decimals, stripped text, and no `"speaker"` key. -/
def mkSegment (seg : RawSegment) : TranscriptSegment :=
  { start := pyRound2 seg.start, stop := pyRound2 seg.stop,
    text := pytrim seg.text, speaker := none }

/-- The `for seg in segments` copy loop of `run_transcription`
(lines 167-178), on a run during which the cancellation flag is never
observed set (an interrupted run processes only a prefix of `raw`). -/
def copy_segments : List RawSegment → List TranscriptSegment
  | [] => []
  | seg :: rest =>
    if keepSegment seg then mkSegment seg :: copy_segments rest
    else copy_segments rest

/-- The per-speaker accumulator of `build_speaker_summary` (line 273):
Python stores both fields as floats. -/
structure SpeakerStats where
  duration : ℚ
  segments : ℚ
deriving DecidableEq

/-- `summary.setdefault(speaker, ...)` followed by the `+=` updates
(lines 273-275), on an insertion-ordered association list. -/
def addStat : List (String × SpeakerStats) → String → ℚ → List (String × SpeakerStats)
  | [], sp, d => [(sp, ⟨d, 1⟩)]
  | (k, st) :: rest, sp, d =>
    if k = sp then (k, ⟨st.duration + d, st.segments + 1⟩) :: rest
    else (k, st) :: addStat rest sp d

/-- The `for seg in segments` aggregation of `build_speaker_summary`
(lines 267-275): segments with a falsy (`None` or empty) speaker are
skipped; durations are clamped at `0`. -/
def summaryFold : List TranscriptSegment → List (String × SpeakerStats) → List (String × SpeakerStats)
  | [], acc => acc
  | seg :: rest, acc =>
    match seg.speaker with
    | none => summaryFold rest acc
    | some sp =>
      if sp = "" then summaryFold rest acc
      else summaryFold rest (addStat acc sp (max 0 (seg.stop - seg.start)))

/-- One entry of the rendered summary (lines 277-284). -/
structure SpeakerSummary where
  id : String
  segment_count : ℤ
  total_time : String
deriving DecidableEq

/-- Stable insertion by key, modelling `sorted(summary.items())`; the keys
are distinct, so only the key comparison matters. -/
def stats_insert (p : String × SpeakerStats) :
    List (String × SpeakerStats) → List (String × SpeakerStats)
  | [] => [p]
  | q :: rest => if p.1 ≤ q.1 then p :: q :: rest else q :: stats_insert p rest

/-- Stable sort of the accumulated stats by speaker label. -/
def sort_stats : List (String × SpeakerStats) → List (String × SpeakerStats)
  | [] => []
  | p :: rest => stats_insert p (sort_stats rest)

/-- `build_speaker_summary(segments)` (lines 264-284). -/
def build_speaker_summary (segments : List TranscriptSegment) : List SpeakerSummary :=
  (sort_stats (summaryFold segments [])).map fun p =>
    { id := p.1, segment_count := ⌊p.2.segments⌋, total_time := format_time p.2.duration }

/-- The observable behaviour of the external conversion tool in one run:
its exit code and its diagnostic (stderr) text. -/
structure ConvInput where
  returncode : ℤ
  stderr : String
deriving DecidableEq

/-- The `error_line` computation of `convert_to_wav` (line 101):
`proc.stderr.strip().splitlines()[-1] if proc.stderr else "ffmpeg failed"`.
`none` models the `IndexError` raised by `[-1]` when the stripped stderr
has no lines at all. -/
def lastErrorLine (stderr : String) : Option String :=
  if stderr = "" then some "ffmpeg failed"
  else (splitlines (pytrim stderr)).getLast?

/-- The message of the `RuntimeError` raised on a failed conversion
(line 102). -/
def conv_error_message (stderr : String) : Option String :=
  (lastErrorLine stderr).map fun l => "Audio conversion failed: " ++ l

/-- What `convert_to_wav` leaves behind (lines 79-103): on a non-zero exit
code the temporary file is unlinked and the error is raised; on success the
temporary file still exists and its path is returned. -/
structure ConvOutcome where
  result : Except (Option String) String
  temp_left : Bool

/-- `convert_to_wav(audio_path)` (lines 79-103) as a function of the
external tool's behaviour. -/
def convert_to_wav (temp_wav : String) (inp : ConvInput) : ConvOutcome :=
  if inp.returncode ≠ 0 then
    { result := Except.error (conv_error_message inp.stderr), temp_left := false }
  else { result := Except.ok temp_wav, temp_left := true }

/-- The fields of the final result dict relevant to the claims
(lines 424-437). -/
structure PipelineResult where
  success : Bool
  segments : List TranscriptSegment
  speakers : List SpeakerSummary
  is_partial : Bool
deriving DecidableEq

/-- The post-join part of `transcribe` (lines 405-437): `interrupted` is
the value of the cancellation flag observed at the pre-diarization gate
(line 407) and again at `"is_partial"` (line 435).  When diarization is
enabled and the flag is clear, the aligner attaches speakers; when the
flag is set, diarization and alignment are skipped and the transcription
segments are returned as they are. -/
def transcribe_gate (enable_diarization interrupted : Bool)
    (segments : List TranscriptSegment) (speaker_segments : List SpeakerInterval) :
    PipelineResult :=
  let segments' := if enable_diarization && !interrupted
    then assign_speakers segments speaker_segments else segments
  { success := true, segments := segments',
    speakers := build_speaker_summary segments', is_partial := interrupted }

/-- The outcome of the `try` block of `transcribe` (lines 388-458):
either the raised error or the result, together with whether
`run_transcription` was invoked and whether the temporary waveform file
survives the `finally` clause. -/
structure FlowOutcome where
  result : Except (Option String) PipelineResult
  transcription_ran : Bool
  temp_left : Bool

/-- The orchestration of `transcribe` (lines 388-458).  When diarization
is enabled, conversion is submitted to the single-worker pool and
`run_transcription` runs on the calling thread; the conversion outcome
(including a conversion failure) is only observed at the join point
`wav_future.result()` (line 399), after transcription has finished, so
`transcription_ran` is `true` on every path through the `try` block.
`interrupted` is the flag value observed at the pre-diarization gate;
`raw` is the transcription engine's segment list; the `finally` clause
unlinks the temporary file on the successful paths. -/
def transcribe_flow (enable_diarization interrupted : Bool) (conv : ConvInput)
    (raw : List RawSegment) (speaker_segments : List SpeakerInterval) : FlowOutcome :=
  let segments := copy_segments raw
  if enable_diarization then
    match (convert_to_wav "temp.wav" conv).result with
    | Except.error e =>
      { result := Except.error e, transcription_ran := true,
        temp_left := (convert_to_wav "temp.wav" conv).temp_left }
    | Except.ok _ =>
      { result := Except.ok (transcribe_gate true interrupted segments speaker_segments),
        transcription_ran := true, temp_left := false }
  else
    { result := Except.ok (transcribe_gate false interrupted segments speaker_segments),
      transcription_ran := true, temp_left := false }

theorem overlap_nonneg (s e : ℚ) (iv : SpeakerInterval) : 0 ≤ overlap s e iv :=
  le_max_left 0 _

theorem overlap_eq_zero_of_stop_le {s : ℚ} (e : ℚ) {iv : SpeakerInterval}
    (h : iv.stop ≤ s) : overlap s e iv = 0 := by
  have h1 : min e iv.stop ≤ iv.stop := min_le_right _ _
  have h2 : s ≤ max s iv.start := le_max_left _ _
  have h3 : min e iv.stop - max s iv.start ≤ 0 := by linarith
  exact max_eq_left h3

theorem overlap_eq_zero_of_le_start {e : ℚ} (s : ℚ) {iv : SpeakerInterval}
    (h : e ≤ iv.start) : overlap s e iv = 0 := by
  have h1 : min e iv.stop ≤ e := min_le_left _ _
  have h2 : iv.start ≤ max s iv.start := le_max_right _ _
  have h3 : min e iv.stop - max s iv.start ≤ 0 := by linarith
  exact max_eq_left h3

theorem maxOverlap_nonneg (s e : ℚ) (l : List SpeakerInterval) :
    0 ≤ maxOverlap s e l := by
  induction l with
  | nil => exact le_refl 0
  | cons iv rest ih => exact le_trans ih (le_max_right _ _)

theorem le_maxOverlap_of_mem {s e : ℚ} {iv : SpeakerInterval} {l : List SpeakerInterval}
    (h : iv ∈ l) : overlap s e iv ≤ maxOverlap s e l := by
  induction l with
  | nil => cases h
  | cons j rest ih =>
    rcases List.mem_cons.mp h with h | h
    · subst h; exact le_max_left _ _
    · exact le_trans (ih h) (le_max_right _ _)

theorem maxOverlap_le {s e B : ℚ} {l : List SpeakerInterval} (hB : 0 ≤ B)
    (h : ∀ iv ∈ l, overlap s e iv ≤ B) : maxOverlap s e l ≤ B := by
  induction l with
  | nil => exact hB
  | cons iv rest ih =>
    exact max_le (h iv (List.mem_cons_self iv rest))
      (ih fun j hj => h j (List.mem_cons_of_mem iv hj))

theorem maxOverlap_append (s e : ℚ) (l₁ l₂ : List SpeakerInterval) :
    maxOverlap s e (l₁ ++ l₂) = max (maxOverlap s e l₁) (maxOverlap s e l₂) := by
  induction l₁ with
  | nil =>
    simp only [List.nil_append, maxOverlap]
    exact (max_eq_right (maxOverlap_nonneg s e l₂)).symm
  | cons iv rest ih =>
    show max (overlap s e iv) (maxOverlap s e (rest ++ l₂)) =
      max (maxOverlap s e (iv :: rest)) (maxOverlap s e l₂)
    rw [ih, show maxOverlap s e (iv :: rest) = max (overlap s e iv) (maxOverlap s e rest) from rfl,
      max_assoc]

theorem maxOverlap_eq_zero {s e : ℚ} {l : List SpeakerInterval}
    (h : ∀ iv ∈ l, overlap s e iv = 0) : maxOverlap s e l = 0 :=
  le_antisymm (maxOverlap_le le_rfl fun iv hm => (h iv hm).le) (maxOverlap_nonneg s e l)

theorem maxOverlap_cases (s e : ℚ) (l : List SpeakerInterval) :
    maxOverlap s e l = 0 ∨ ∃ iv ∈ l, maxOverlap s e l = overlap s e iv := by
  induction l with
  | nil => exact Or.inl rfl
  | cons iv rest ih =>
    rcases le_total (overlap s e iv) (maxOverlap s e rest) with hle | hle
    · rw [show maxOverlap s e (iv :: rest) = max (overlap s e iv) (maxOverlap s e rest) from rfl,
        max_eq_right hle]
      rcases ih with h0 | ⟨j, hj, hEq⟩
      · exact Or.inl h0
      · exact Or.inr ⟨j, List.mem_cons_of_mem iv hj, hEq⟩
    · rw [show maxOverlap s e (iv :: rest) = max (overlap s e iv) (maxOverlap s e rest) from rfl,
        max_eq_left hle]
      exact Or.inr ⟨iv, List.mem_cons_self iv rest, rfl⟩

theorem maxOverlap_congr {s e : ℚ} {l₁ l₂ : List SpeakerInterval}
    (h : ∀ iv, iv ∈ l₁ ↔ iv ∈ l₂) : maxOverlap s e l₁ = maxOverlap s e l₂ := by
  refine le_antisymm ?_ ?_
  · exact maxOverlap_le (maxOverlap_nonneg s e l₂)
      fun iv hm => le_maxOverlap_of_mem ((h iv).mp hm)
  · exact maxOverlap_le (maxOverlap_nonneg s e l₁)
      fun iv hm => le_maxOverlap_of_mem ((h iv).mpr hm)

theorem mem_ordered_insert (iv x : SpeakerInterval) (l : List SpeakerInterval) :
    x ∈ ordered_insert iv l ↔ x = iv ∨ x ∈ l := by
  induction l with
  | nil => simp [ordered_insert]
  | cons j rest ih =>
    by_cases h : iv.start ≤ j.start
    · simp [ordered_insert, h]
    · simp only [ordered_insert, if_neg h, List.mem_cons, ih]
      tauto

theorem mem_sort_by_start (x : SpeakerInterval) (l : List SpeakerInterval) :
    x ∈ sort_by_start l ↔ x ∈ l := by
  induction l with
  | nil => simp [sort_by_start]
  | cons iv rest ih =>
    simp only [sort_by_start, mem_ordered_insert, ih, List.mem_cons]

theorem pairwise_ordered_insert {iv : SpeakerInterval} {l : List SpeakerInterval}
    (h : l.Pairwise fun a b => a.start ≤ b.start) :
    (ordered_insert iv l).Pairwise fun a b => a.start ≤ b.start := by
  induction l with
  | nil => simp [ordered_insert]
  | cons j rest ih =>
    rcases List.pairwise_cons.mp h with ⟨hj, hrest⟩
    by_cases hle : iv.start ≤ j.start
    · rw [ordered_insert, if_pos hle]
      refine List.pairwise_cons.mpr ⟨?_, h⟩
      intro x hx
      rcases List.mem_cons.mp hx with hx | hx
      · exact hx ▸ hle
      · exact le_trans hle (hj x hx)
    · rw [ordered_insert, if_neg hle]
      refine List.pairwise_cons.mpr ⟨?_, ih hrest⟩
      intro x hx
      rcases (mem_ordered_insert iv x rest).mp hx with hx | hx
      · exact hx ▸ (le_of_not_le hle)
      · exact hj x hx

theorem pairwise_sort_by_start (l : List SpeakerInterval) :
    (sort_by_start l).Pairwise fun a b => a.start ≤ b.start := by
  induction l with
  | nil => simp [sort_by_start]
  | cons iv rest ih => exact pairwise_ordered_insert ih

theorem advance_decomp (s : ℚ) (l : List SpeakerInterval) :
    ∃ dropped, l = dropped ++ advance s l ∧ ∀ iv ∈ dropped, iv.stop ≤ s := by
  induction l with
  | nil => exact ⟨[], rfl, by simp⟩
  | cons iv rest ih =>
    by_cases h : iv.stop ≤ s
    · obtain ⟨d, hd, hall⟩ := ih
      refine ⟨iv :: d, ?_, ?_⟩
      · rw [advance, if_pos h, List.cons_append]
        exact congrArg (iv :: ·) hd
      · intro j hj
        rcases List.mem_cons.mp hj with hj | hj
        · exact hj ▸ h
        · exact hall j hj
    · exact ⟨[], by rw [advance, if_neg h]; rfl, by simp⟩

theorem advance_pairwise {s : ℚ} {l : List SpeakerInterval}
    (h : l.Pairwise fun a b => a.start ≤ b.start) :
    (advance s l).Pairwise fun a b => a.start ≤ b.start := by
  induction l with
  | nil => simp [advance]
  | cons iv rest ih =>
    by_cases hc : iv.stop ≤ s
    · rw [advance, if_pos hc]
      exact ih (List.pairwise_cons.mp h).2
    · rwa [advance, if_neg hc]

theorem mem_advance {s : ℚ} {l : List SpeakerInterval} {iv : SpeakerInterval}
    (h : iv ∈ advance s l) : iv ∈ l := by
  obtain ⟨d, hd, _⟩ := advance_decomp s l
  rw [hd]
  exact List.mem_append.mpr (Or.inr h)

theorem dropWhile_start_ge {e : ℚ} {l : List SpeakerInterval}
    (h : l.Pairwise fun a b => a.start ≤ b.start) :
    ∀ iv ∈ l.dropWhile (fun j => decide (j.start < e)), e ≤ iv.start := by
  induction l with
  | nil => simp
  | cons a rest ih =>
    rcases List.pairwise_cons.mp h with ⟨ha, hrest⟩
    by_cases hlt : a.start < e
    · rw [List.dropWhile_cons, if_pos (by simpa using hlt)]
      exact ih hrest
    · rw [List.dropWhile_cons, if_neg (by simpa using hlt)]
      intro iv hm
      rcases List.mem_cons.mp hm with hm | hm
      · exact hm ▸ (not_lt.mp hlt)
      · exact le_trans (not_lt.mp hlt) (ha iv hm)

/-- Characterization of the probe loop: starting from `best_overlap = b`
and `best_speaker = best`, either no scanned candidate strictly beats `b`
and the accumulator is returned, or the result is the speaker of the first
scanned candidate attaining the maximal overlap, which strictly beats `b`,
strictly beats every earlier candidate, and weakly beats every later
scanned candidate. -/
theorem bestOf_cases (s e : ℚ) (l : List SpeakerInterval) (b : ℚ) (best : Option String) :
    (bestOf s e l b best = best ∧
      ∀ iv ∈ l.takeWhile (fun j => decide (j.start < e)), overlap s e iv ≤ b) ∨
    (∃ l₁ iv l₂, l.takeWhile (fun j => decide (j.start < e)) = l₁ ++ iv :: l₂ ∧
      bestOf s e l b best = some iv.speaker ∧ b < overlap s e iv ∧
      (∀ j ∈ l₁, overlap s e j < overlap s e iv) ∧
      (∀ j ∈ l₂, overlap s e j ≤ overlap s e iv)) := by
  induction l generalizing b best with
  | nil => exact Or.inl ⟨rfl, by simp⟩
  | cons iv rest ih =>
    by_cases hlt : iv.start < e
    · rw [List.takeWhile_cons, if_pos (by simpa using hlt)]
      by_cases hov : b < overlap s e iv
      · rw [bestOf, if_pos hlt, if_pos hov]
        rcases ih (overlap s e iv) (some iv.speaker) with ⟨hres, hall⟩ | ⟨l₁, j, l₂, hdec, hres, hbj, hl₁, hl₂⟩
        · exact Or.inr ⟨[], iv, rest.takeWhile _, by simp, hres, hov, by simp, hall⟩
        · refine Or.inr ⟨iv :: l₁, j, l₂, by rw [hdec, List.cons_append], hres, lt_trans hov hbj, ?_, hl₂⟩
          intro x hx
          rcases List.mem_cons.mp hx with hx | hx
          · exact hx ▸ hbj
          · exact hl₁ x hx
      · rw [bestOf, if_pos hlt, if_neg hov]
        rcases ih b best with ⟨hres, hall⟩ | ⟨l₁, j, l₂, hdec, hres, hbj, hl₁, hl₂⟩
        · refine Or.inl ⟨hres, ?_⟩
          intro x hx
          rcases List.mem_cons.mp hx with hx | hx
          · exact hx ▸ (not_lt.mp hov)
          · exact hall x hx
        · refine Or.inr ⟨iv :: l₁, j, l₂, by rw [hdec, List.cons_append], hres, hbj, ?_, hl₂⟩
          intro x hx
          rcases List.mem_cons.mp hx with hx | hx
          · exact hx ▸ (lt_of_le_of_lt (not_lt.mp hov) hbj)
          · exact hl₁ x hx
    · rw [List.takeWhile_cons, if_neg (by simpa using hlt), bestOf, if_neg hlt]
      exact Or.inl ⟨rfl, by simp⟩

theorem applyBest_proj (seg : TranscriptSegment) (b : Option String) :
    (applyBest seg b).start = seg.start ∧ (applyBest seg b).stop = seg.stop ∧
      (applyBest seg b).text = seg.text := by
  cases b with
  | none => exact ⟨rfl, rfl, rfl⟩
  | some sp => by_cases h : sp = "" <;> simp [applyBest, h]

theorem applyBest_idem (seg : TranscriptSegment) (b : Option String) :
    applyBest (applyBest seg b) b = applyBest seg b := by
  cases b with
  | none => rfl
  | some sp => by_cases h : sp = "" <;> simp [applyBest, h]

theorem assignLoop_map_proj (segs : List TranscriptSegment) (ivs : List SpeakerInterval) :
    (assignLoop segs ivs).map (fun sg => (sg.start, sg.stop, sg.text)) =
      segs.map fun sg => (sg.start, sg.stop, sg.text) := by
  induction segs generalizing ivs with
  | nil => rfl
  | cons seg rest ih =>
    obtain ⟨h1, h2, h3⟩ :=
      applyBest_proj seg (bestOf seg.start seg.stop (advance seg.start ivs) 0 none)
    simp only [assignLoop, List.map_cons, h1, h2, h3, ih]

theorem assignLoop_length (segs : List TranscriptSegment) (ivs : List SpeakerInterval) :
    (assignLoop segs ivs).length = segs.length := by
  have h := congrArg List.length (assignLoop_map_proj segs ivs)
  simpa using h

theorem assignLoop_idem (segs : List TranscriptSegment) (ivs : List SpeakerInterval) :
    assignLoop (assignLoop segs ivs) ivs = assignLoop segs ivs := by
  induction segs generalizing ivs with
  | nil => rfl
  | cons seg rest ih =>
    obtain ⟨h1, h2, _⟩ :=
      applyBest_proj seg (bestOf seg.start seg.stop (advance seg.start ivs) 0 none)
    simp only [assignLoop]
    rw [h1, h2, applyBest_idem, ih]

theorem copy_segments_eq (raw : List RawSegment) :
    copy_segments raw = (raw.filter keepSegment).map mkSegment := by
  induction raw with
  | nil => rfl
  | cons seg rest ih =>
    by_cases h : keepSegment seg <;>
      simp [copy_segments, List.filter_cons, h, ih]

theorem copy_segments_speaker_none (raw : List RawSegment) :
    ∀ sg ∈ copy_segments raw, sg.speaker = none := by
  induction raw with
  | nil => simp [copy_segments]
  | cons seg rest ih =>
    intro sg hm
    by_cases h : keepSegment seg
    · rw [copy_segments, if_pos h] at hm
      rcases List.mem_cons.mp hm with hm | hm
      · rw [hm]; rfl
      · exact ih sg hm
    · rw [copy_segments, if_neg h] at hm
      exact ih sg hm

theorem summaryFold_none {segs : List TranscriptSegment}
    (h : ∀ sg ∈ segs, sg.speaker = none) (acc : List (String × SpeakerStats)) :
    summaryFold segs acc = acc := by
  induction segs with
  | nil => rfl
  | cons seg rest ih =>
    have hs := h seg (List.mem_cons_self seg rest)
    rw [summaryFold, hs]
    exact ih fun sg hm => h sg (List.mem_cons_of_mem seg hm)

theorem build_speaker_summary_none {segs : List TranscriptSegment}
    (h : ∀ sg ∈ segs, sg.speaker = none) : build_speaker_summary segs = [] := by
  rw [build_speaker_summary, summaryFold_none h]
  rfl

/-- Main invariant of the sweep: for a start-sorted segment list whose
speakers are unset, with the sorted interval list split as
`full = dropped ++ ivs0` where every dropped interval ends before every
remaining segment starts, the loop pairs each segment with an output
segment that is labelled iff its maximal overlap over `full` is positive,
and in that case is labelled with the speaker of an interval attaining
that maximal overlap. -/
theorem assignLoop_forall2 (full : List SpeakerInterval)
    (hlab : ∀ iv ∈ full, iv.speaker ≠ "") :
    ∀ (segs : List TranscriptSegment) (ivs0 dropped : List SpeakerInterval),
      full = dropped ++ ivs0 →
      (ivs0.Pairwise fun a b => a.start ≤ b.start) →
      (segs.Pairwise fun a b => a.start ≤ b.start) →
      (∀ sg ∈ segs, sg.speaker = none) →
      (∀ iv ∈ dropped, ∀ sg ∈ segs, iv.stop ≤ sg.start) →
      List.Forall₂ (fun sg out =>
        (out.speaker.isSome ↔ 0 < maxOverlap sg.start sg.stop full) ∧
        ∀ sp, out.speaker = some sp →
          ∃ iv ∈ full, iv.speaker = sp ∧
            overlap sg.start sg.stop iv = maxOverlap sg.start sg.stop full)
        segs (assignLoop segs ivs0) := by
  intro segs
  induction segs with
  | nil =>
    intro ivs0 dropped _ _ _ _ _
    exact List.Forall₂.nil
  | cons seg rest ih =>
    intro ivs0 dropped hfull hpiv hpseg hnone hdrop
    obtain ⟨adrop, hadec, hadrop⟩ := advance_decomp seg.start ivs0
    have hfull2 : full = (dropped ++ adrop) ++ advance seg.start ivs0 := by
      rw [hfull]
      conv_lhs => rw [hadec]
      rw [List.append_assoc]
    have hpiv1 : (advance seg.start ivs0).Pairwise (fun a b => a.start ≤ b.start) :=
      advance_pairwise hpiv
    have hzero_front : ∀ iv ∈ dropped ++ adrop, overlap seg.start seg.stop iv = 0 := by
      intro iv hm
      rcases List.mem_append.mp hm with hm | hm
      · exact overlap_eq_zero_of_stop_le _ (hdrop iv hm seg (List.mem_cons_self seg rest))
      · exact overlap_eq_zero_of_stop_le _ (hadrop iv hm)
    have hzero_tail : ∀ iv ∈ (advance seg.start ivs0).dropWhile
        (fun j => decide (j.start < seg.stop)), overlap seg.start seg.stop iv = 0 :=
      fun iv hm => overlap_eq_zero_of_le_start _ (dropWhile_start_ge hpiv1 iv hm)
    have hsplit := @List.takeWhile_append_dropWhile _
      (fun j => decide (j.start < seg.stop)) (advance seg.start ivs0)
    have hmax : maxOverlap seg.start seg.stop full =
        maxOverlap seg.start seg.stop ((advance seg.start ivs0).takeWhile
          (fun j => decide (j.start < seg.stop))) := by
      rw [hfull2, maxOverlap_append, maxOverlap_eq_zero hzero_front,
        max_eq_right (maxOverlap_nonneg _ _ _)]
      have h2 : maxOverlap seg.start seg.stop (advance seg.start ivs0) =
          maxOverlap seg.start seg.stop
            (((advance seg.start ivs0).takeWhile (fun j => decide (j.start < seg.stop))) ++
              ((advance seg.start ivs0).dropWhile (fun j => decide (j.start < seg.stop)))) := by
        rw [hsplit]
      rw [h2, maxOverlap_append, maxOverlap_eq_zero hzero_tail,
        max_eq_left (maxOverlap_nonneg _ _ _)]
    have hmem_window : ∀ iv ∈ (advance seg.start ivs0).takeWhile
        (fun j => decide (j.start < seg.stop)), iv ∈ full := by
      intro iv hm
      have h1 : iv ∈ advance seg.start ivs0 :=
        (List.takeWhile_sublist _).subset hm
      have h2 : iv ∈ ivs0 := mem_advance h1
      rw [hfull]
      exact List.mem_append.mpr (Or.inr h2)
    show List.Forall₂ _ (seg :: rest)
      (applyBest seg (bestOf seg.start seg.stop (advance seg.start ivs0) 0 none) ::
        assignLoop rest (advance seg.start ivs0))
    refine List.Forall₂.cons ?_ ?_
    · rcases bestOf_cases seg.start seg.stop (advance seg.start ivs0) 0 none with
        ⟨hres, hall⟩ | ⟨l₁, iv, l₂, hdec, hres, hpos, hl₁, hl₂⟩
      · have hwin0 : maxOverlap seg.start seg.stop ((advance seg.start ivs0).takeWhile
            (fun j => decide (j.start < seg.stop))) = 0 :=
          maxOverlap_eq_zero fun iv hm =>
            le_antisymm (hall iv hm) (overlap_nonneg _ _ _)
        have hM0 : maxOverlap seg.start seg.stop full = 0 := by rw [hmax, hwin0]
        rw [hres]
        refine ⟨?_, ?_⟩
        · rw [hM0]
          simp [applyBest, hnone seg (List.mem_cons_self seg rest)]
        · intro sp hsp
          rw [show applyBest seg none = seg from rfl,
            hnone seg (List.mem_cons_self seg rest)] at hsp
          cases hsp
      · have hivfull : iv ∈ full := by
          apply hmem_window
          rw [hdec]
          exact List.mem_append.mpr (Or.inr (List.mem_cons_self iv l₂))
        have hivwin : iv ∈ (advance seg.start ivs0).takeWhile
            (fun j => decide (j.start < seg.stop)) := by
          rw [hdec]
          exact List.mem_append.mpr (Or.inr (List.mem_cons_self iv l₂))
        have hdom : ∀ j ∈ (advance seg.start ivs0).takeWhile
            (fun j => decide (j.start < seg.stop)),
            overlap seg.start seg.stop j ≤ overlap seg.start seg.stop iv := by
          intro j hm
          rw [hdec] at hm
          rcases List.mem_append.mp hm with hm | hm
          · exact (hl₁ j hm).le
          · rcases List.mem_cons.mp hm with hm | hm
            · exact hm ▸ le_rfl
            · exact hl₂ j hm
        have hwin : maxOverlap seg.start seg.stop ((advance seg.start ivs0).takeWhile
            (fun j => decide (j.start < seg.stop))) = overlap seg.start seg.stop iv :=
          le_antisymm (maxOverlap_le (overlap_nonneg _ _ _) hdom)
            (le_maxOverlap_of_mem hivwin)
        have hM : maxOverlap seg.start seg.stop full = overlap seg.start seg.stop iv := by
          rw [hmax, hwin]
        have hspeaker : (applyBest seg
            (bestOf seg.start seg.stop (advance seg.start ivs0) 0 none)).speaker =
            some iv.speaker := by
          rw [hres]
          simp [applyBest, hlab iv hivfull]
        refine ⟨?_, ?_⟩
        · rw [hspeaker, hM]
          simp [hpos]
        · intro sp hsp
          rw [hspeaker] at hsp
          exact ⟨iv, hivfull, (Option.some_injective _ hsp).symm ▸ rfl, hM.symm⟩
    · refine ih (advance seg.start ivs0) (dropped ++ adrop) hfull2 hpiv1
        (List.pairwise_cons.mp hpseg).2
        (fun sg hm => hnone sg (List.mem_cons_of_mem seg hm)) ?_
      intro iv hm sg' hm'
      rcases List.mem_append.mp hm with hm | hm
      · exact hdrop iv hm sg' (List.mem_cons_of_mem seg hm')
      · exact le_trans (hadrop iv hm)
          ((List.pairwise_cons.mp hpseg).1 sg' hm')

theorem pyRound_natCast (n : ℕ) : pyRound (n : ℚ) = n := by
  have hfl : ⌊(n : ℚ)⌋ = (n : ℤ) := Int.floor_natCast n
  rw [pyRound, hfl]
  have hz : (n : ℚ) - ((n : ℤ) : ℚ) = 0 := by push_cast; ring
  rw [hz]
  norm_num

theorem format_time_natCast (n : ℕ) :
    format_time (n : ℚ) =
      if 0 < n / 3600 then
        toString (n / 3600) ++ ":" ++ pad2 (n % 3600 / 60) ++ ":" ++ pad2 (n % 60)
      else toString (n % 3600 / 60) ++ ":" ++ pad2 (n % 60) := by
  simp only [format_time, pyRound_natCast]
  rw [max_eq_right (Int.natCast_nonneg n), Int.toNat_natCast]

/-- C2: on segments `[(0,5,"a"),(5,10,"b")]` and intervals
`[(0,4,"S1"),(4,9,"S2"),(9,12,"S1")]`, `assign_speakers` labels segment
`"a"` with `"S1"` (overlap 4 against 1) and segment `"b"` with `"S2"`
(overlap 4 against 1). -/
theorem assign_speakers_sweep_example :
    assign_speakers [⟨0, 5, "a", none⟩, ⟨5, 10, "b", none⟩]
      [⟨0, 4, "S1"⟩, ⟨4, 9, "S2"⟩, ⟨9, 12, "S1"⟩] =
      [⟨0, 5, "a", some "S1"⟩, ⟨5, 10, "b", some "S2"⟩] := by
  norm_num [assign_speakers, assignLoop, sort_by_start, ordered_insert, advance,
    bestOf, overlap, applyBest]
  decide

/-- C3: the probe loop selects the speaker of the scanned candidate with
the strictly greatest overlap; on ties the first-scanned (lowest-start)
candidate wins, because the comparison is a strict `>`: the winner has
positive overlap, strictly beats every earlier scanned candidate and
weakly beats every later one.  Concretely, segment `(0,10)` with intervals
`(0,5,"S1")` and `(5,10,"S2")` (overlap 5 each) is labelled `"S1"`. -/
theorem assign_speakers_strict_best (s e : ℚ) (l : List SpeakerInterval) (sp : String)
    (h : bestOf s e l 0 none = some sp) :
    (∃ l₁ iv l₂, l.takeWhile (fun j => decide (j.start < e)) = l₁ ++ iv :: l₂ ∧
      iv.speaker = sp ∧ 0 < overlap s e iv ∧
      (∀ j ∈ l₁, overlap s e j < overlap s e iv) ∧
      (∀ j ∈ l₂, overlap s e j ≤ overlap s e iv)) ∧
    assign_speakers [⟨0, 10, "x", none⟩] [⟨0, 5, "S1"⟩, ⟨5, 10, "S2"⟩] =
      [⟨0, 10, "x", some "S1"⟩] := by
  constructor
  · rcases bestOf_cases s e l 0 none with ⟨hres, _⟩ |
      ⟨l₁, iv, l₂, hdec, hres, hpos, hl₁, hl₂⟩
    · rw [h] at hres
      cases hres
    · have hsp : iv.speaker = sp := Option.some.inj (hres.symm.trans h)
      exact ⟨l₁, iv, l₂, hdec, hsp, hpos, hl₁, hl₂⟩
  · norm_num [assign_speakers, assignLoop, sort_by_start, ordered_insert, advance,
      bestOf, overlap, applyBest]
    decide

/-- Witness for C3 at segment `(0,10)` with the tie intervals. -/
theorem assign_speakers_strict_best_witness :
    (∃ l₁ iv l₂,
      ([⟨0, 5, "S1"⟩, ⟨5, 10, "S2"⟩] : List SpeakerInterval).takeWhile
        (fun j => decide (j.start < 10)) = l₁ ++ iv :: l₂ ∧
      iv.speaker = "S1" ∧ 0 < overlap 0 10 iv ∧
      (∀ j ∈ l₁, overlap 0 10 j < overlap 0 10 iv) ∧
      (∀ j ∈ l₂, overlap 0 10 j ≤ overlap 0 10 iv)) ∧
    assign_speakers [⟨0, 10, "x", none⟩] [⟨0, 5, "S1"⟩, ⟨5, 10, "S2"⟩] =
      [⟨0, 10, "x", some "S1"⟩] :=
  assign_speakers_strict_best 0 10 [⟨0, 5, "S1"⟩, ⟨5, 10, "S2"⟩] "S1"
    (by norm_num [bestOf, overlap])

/-- C4: alignment is a frame-preserving relabelling — the output has the
same length, and the same `start`, `stop` and `text` at every position;
only the `speaker` field may change. -/
theorem assign_speakers_frame (segments : List TranscriptSegment)
    (speaker_segments : List SpeakerInterval) :
    (assign_speakers segments speaker_segments).length = segments.length ∧
    (assign_speakers segments speaker_segments).map (fun sg => (sg.start, sg.stop, sg.text)) =
      segments.map fun sg => (sg.start, sg.stop, sg.text) := by
  by_cases h : speaker_segments.isEmpty
  · rw [assign_speakers, if_pos h]
    exact ⟨rfl, rfl⟩
  · rw [assign_speakers, if_neg h]
    exact ⟨assignLoop_length _ _, assignLoop_map_proj _ _⟩

/-- Witness for C4 on a concrete segment and interval list. -/
theorem assign_speakers_frame_witness :
    (assign_speakers [⟨0, 5, "a", none⟩] [⟨0, 4, "S1"⟩]).length =
      ([⟨0, 5, "a", none⟩] : List TranscriptSegment).length ∧
    (assign_speakers [⟨0, 5, "a", none⟩] [⟨0, 4, "S1"⟩]).map
        (fun sg => (sg.start, sg.stop, sg.text)) =
      ([⟨0, 5, "a", none⟩] : List TranscriptSegment).map
        fun sg => (sg.start, sg.stop, sg.text) :=
  assign_speakers_frame [⟨0, 5, "a", none⟩] [⟨0, 4, "S1"⟩]

/-- C7: with an empty interval list `assign_speakers` is the identity —
the input list is returned unchanged and no `speaker` field appears. -/
theorem assign_speakers_empty_intervals (segments : List TranscriptSegment) :
    assign_speakers segments [] = segments := rfl

/-- Witness for C7 on a concrete segment list. -/
theorem assign_speakers_empty_intervals_witness :
    assign_speakers [⟨1, 2, "hi", none⟩] [] = [⟨1, 2, "hi", none⟩] :=
  assign_speakers_empty_intervals [⟨1, 2, "hi", none⟩]

/-- C8: `assign_speakers` is idempotent — applying it again to its own
output with the same interval list changes nothing. -/
theorem assign_speakers_idempotent (segments : List TranscriptSegment)
    (speaker_segments : List SpeakerInterval) :
    assign_speakers (assign_speakers segments speaker_segments) speaker_segments =
      assign_speakers segments speaker_segments := by
  by_cases h : speaker_segments = []
  · subst h
    rfl
  · have hS : speaker_segments.isEmpty = false := by
      simpa [List.isEmpty_iff] using h
    simp only [assign_speakers, hS, Bool.false_eq_true, if_false]
    exact assignLoop_idem _ _

/-- Witness for C8 on a concrete input. -/
theorem assign_speakers_idempotent_witness :
    assign_speakers (assign_speakers [⟨0, 5, "a", none⟩] [⟨0, 4, "S1"⟩]) [⟨0, 4, "S1"⟩] =
      assign_speakers [⟨0, 5, "a", none⟩] [⟨0, 4, "S1"⟩] :=
  assign_speakers_idempotent [⟨0, 5, "a", none⟩] [⟨0, 4, "S1"⟩]

/-- C1 (amended): for transcript segments sorted by nondecreasing `start`
with unset speakers, and intervals with nonempty labels, `assign_speakers`
labels a segment iff its maximal overlap with some interval is strictly
positive, and any assigned label belongs to an interval attaining that
maximal overlap. -/
theorem assign_speakers_overlap_iff
    (segments : List TranscriptSegment) (speaker_segments : List SpeakerInterval)
    (hsorted : segments.Pairwise fun a b => a.start ≤ b.start)
    (hnone : ∀ sg ∈ segments, sg.speaker = none)
    (hlab : ∀ iv ∈ speaker_segments, iv.speaker ≠ "") :
    List.Forall₂ (fun sg out =>
      (out.speaker.isSome ↔ 0 < maxOverlap sg.start sg.stop speaker_segments) ∧
      ∀ sp, out.speaker = some sp →
        ∃ iv ∈ speaker_segments, iv.speaker = sp ∧
          overlap sg.start sg.stop iv = maxOverlap sg.start sg.stop speaker_segments)
      segments (assign_speakers segments speaker_segments) := by
  by_cases hempty : speaker_segments = []
  · subst hempty
    rw [assign_speakers_empty_intervals segments]
    refine List.forall₂_same.mpr ?_
    intro sg hm
    refine ⟨?_, ?_⟩
    · rw [hnone sg hm]
      simp [maxOverlap]
    · intro sp hsp
      rw [hnone sg hm] at hsp
      cases hsp
  · have hS : speaker_segments.isEmpty = false := by
      simpa [List.isEmpty_iff] using hempty
    rw [assign_speakers]
    simp only [hS, Bool.false_eq_true, if_false]
    have h := assignLoop_forall2 (sort_by_start speaker_segments)
      (fun iv hm => hlab iv ((mem_sort_by_start iv speaker_segments).mp hm))
      segments (sort_by_start speaker_segments) [] rfl
      (pairwise_sort_by_start speaker_segments) hsorted hnone (by simp)
    refine List.Forall₂.imp ?_ h
    rintro sg out ⟨h1, h2⟩
    have hM : maxOverlap sg.start sg.stop (sort_by_start speaker_segments) =
        maxOverlap sg.start sg.stop speaker_segments :=
      maxOverlap_congr fun iv => mem_sort_by_start iv speaker_segments
    refine ⟨by rw [← hM]; exact h1, ?_⟩
    intro sp hsp
    obtain ⟨iv, hm, hsp', hov⟩ := h2 sp hsp
    exact ⟨iv, (mem_sort_by_start iv speaker_segments).mp hm, hsp', by rw [← hM]; exact hov⟩

/-- Counterexample to C1 as stated over every segment list: when the
segments are not start-sorted, the monotone cursor skips intervals, so
segment `(0,5)` — whose best overlap with interval `(0,5,"S1")` is `5 > 0`
— is left unlabelled. -/
theorem assign_speakers_unsorted_cex :
    assign_speakers [⟨10, 20, "b", none⟩, ⟨0, 5, "a", none⟩] [⟨0, 5, "S1"⟩] =
      [⟨10, 20, "b", none⟩, ⟨0, 5, "a", none⟩] ∧
    0 < maxOverlap 0 5 [⟨0, 5, "S1"⟩] := by
  constructor
  · norm_num [assign_speakers, assignLoop, sort_by_start, ordered_insert, advance,
      bestOf, overlap, applyBest]
  · norm_num [maxOverlap, overlap]

/-- Witness for C1 (amended) on a sorted singleton input. -/
theorem assign_speakers_overlap_iff_witness :
    List.Forall₂ (fun (sg out : TranscriptSegment) =>
      (out.speaker.isSome ↔ 0 < maxOverlap sg.start sg.stop [⟨0, 4, "S1"⟩]) ∧
      ∀ sp, out.speaker = some sp →
        ∃ iv ∈ ([⟨0, 4, "S1"⟩] : List SpeakerInterval), iv.speaker = sp ∧
          overlap sg.start sg.stop iv = maxOverlap sg.start sg.stop [⟨0, 4, "S1"⟩])
      [⟨0, 5, "a", none⟩] (assign_speakers [⟨0, 5, "a", none⟩] [⟨0, 4, "S1"⟩]) :=
  assign_speakers_overlap_iff [⟨0, 5, "a", none⟩] [⟨0, 4, "S1"⟩]
    (by simp) (by simp) (by decide)

/-- C9: `format_time` renders a `minutes:seconds` string, and adds an
hours field exactly when the (clamped, rounded) duration reaches one hour;
`0 ↦ "0:00"`, `65 ↦ "1:05"`, `3661 ↦ "1:01:01"`. -/
theorem format_time_spec :
    format_time 0 = "0:00" ∧ format_time 65 = "1:05" ∧ format_time 3661 = "1:01:01" ∧
    ∀ n : ℕ,
      (n < 3600 → format_time (n : ℚ) = toString (n / 60) ++ ":" ++ pad2 (n % 60)) ∧
      (3600 ≤ n → format_time (n : ℚ) =
        toString (n / 3600) ++ ":" ++ pad2 (n % 3600 / 60) ++ ":" ++ pad2 (n % 60)) := by
  refine ⟨?_, ?_, ?_, ?_⟩
  · norm_num [format_time, pyRound, pad2]
    decide
  · norm_num [format_time, pyRound, pad2]
    decide
  · norm_num [format_time, pyRound, pad2]
    decide
  · intro n
    refine ⟨?_, ?_⟩
    · intro h
      rw [format_time_natCast n, if_neg (by simp [Nat.div_eq_of_lt h]),
        Nat.mod_eq_of_lt h]
    · intro h
      rw [format_time_natCast n, if_pos (Nat.div_pos h (by norm_num))]

/-- Witness for C9: the hours branch at two hours exactly. -/
theorem format_time_spec_witness :
    format_time ((7200 : ℕ) : ℚ) =
      toString (7200 / 3600) ++ ":" ++ pad2 (7200 % 3600 / 60) ++ ":" ++ pad2 (7200 % 60) :=
  (format_time_spec.2.2.2 7200).2 (by norm_num)

/-- C10: the copy loop is exactly a filter-and-map — it keeps precisely
the raw segments whose stripped text is nonempty and not one of the
pure-punctuation strings, and every kept segment's text is nonempty and
not pure punctuation. -/
theorem copy_loop_filter_spec (raw : List RawSegment) :
    copy_segments raw = (raw.filter keepSegment).map mkSegment ∧
    ∀ sg ∈ copy_segments raw, sg.text ≠ "" ∧ sg.text ∉ punctuation_only := by
  refine ⟨copy_segments_eq raw, ?_⟩
  intro sg hm
  rw [copy_segments_eq raw] at hm
  obtain ⟨r, hr, hsg⟩ := List.mem_map.mp hm
  have hk : keepSegment r = true := (List.mem_filter.mp hr).2
  rw [keepSegment] at hk
  have hk' := of_decide_eq_true hk
  rw [← hsg]
  exact ⟨hk'.1, hk'.2⟩

/-- Witness for C10: a whitespace-padded line is kept (stripped), and a
pure-punctuation segment is dropped. -/
theorem copy_loop_filter_spec_witness :
    copy_segments [⟨0, 1, " hello "⟩, ⟨1, 2, "..."⟩] =
      (([⟨0, 1, " hello "⟩, ⟨1, 2, "..."⟩] : List RawSegment).filter keepSegment).map
        mkSegment ∧
    ((mkSegment ⟨0, 1, " hello "⟩).text ≠ "" ∧
      (mkSegment ⟨0, 1, " hello "⟩).text ∉ punctuation_only) := by
  have hmem : mkSegment ⟨0, 1, " hello "⟩ ∈ copy_segments [⟨0, 1, " hello "⟩, ⟨1, 2, "..."⟩] := by
    rw [copy_segments, if_pos (by decide)]
    exact List.mem_cons_self _ _
  exact ⟨(copy_loop_filter_spec [⟨0, 1, " hello "⟩, ⟨1, 2, "..."⟩]).1,
    (copy_loop_filter_spec [⟨0, 1, " hello "⟩, ⟨1, 2, "..."⟩]).2 _ hmem⟩

/-- C5: if the cancellation flag is observed set at the pre-diarization
gate (after a successful conversion, with diarization enabled), the
result is marked partial, its speaker list is empty, every transcription
segment is retained unchanged, and no segment carries a speaker. -/
theorem cancellation_gate_partial (conv : ConvInput) (raw : List RawSegment)
    (speaker_segments : List SpeakerInterval) (hconv : conv.returncode = 0) :
    ∀ r, (transcribe_flow true true conv raw speaker_segments).result = Except.ok r →
      PipelineResult.is_partial r = true ∧ r.speakers = [] ∧
      r.segments = copy_segments raw ∧ ∀ sg ∈ r.segments, sg.speaker = none := by
  intro r hr
  have hne : ¬ conv.returncode ≠ 0 := by simp [hconv]
  have hcv : (convert_to_wav "temp.wav" conv).result = Except.ok "temp.wav" := by
    rw [convert_to_wav, if_neg hne]
  rw [transcribe_flow] at hr
  simp only [hcv, if_true] at hr
  have hrr : transcribe_gate true true (copy_segments raw) speaker_segments = r := by
    simpa using hr
  subst hrr
  have hgate : transcribe_gate true true (copy_segments raw) speaker_segments =
      { success := true, segments := copy_segments raw,
        speakers := build_speaker_summary (copy_segments raw), is_partial := true } := by
    rw [transcribe_gate]
    simp
  rw [hgate]
  refine ⟨rfl, ?_, rfl, ?_⟩
  · exact build_speaker_summary_none (copy_segments_speaker_none raw)
  · exact copy_segments_speaker_none raw

/-- Witness for C5 on a concrete successful conversion and raw segment. -/
theorem cancellation_gate_partial_witness :
    PipelineResult.is_partial (transcribe_gate true true (copy_segments [⟨0, 1, "hi"⟩]) []) =
      true ∧
    (transcribe_gate true true (copy_segments [⟨0, 1, "hi"⟩]) []).speakers = [] ∧
    (transcribe_gate true true (copy_segments [⟨0, 1, "hi"⟩]) []).segments =
      copy_segments [⟨0, 1, "hi"⟩] ∧
    ∀ sg ∈ (transcribe_gate true true (copy_segments [⟨0, 1, "hi"⟩]) []).segments,
      sg.speaker = none :=
  cancellation_gate_partial ⟨0, ""⟩ [⟨0, 1, "hi"⟩] [] rfl
    (transcribe_gate true true (copy_segments [⟨0, 1, "hi"⟩]) []) rfl

/-- Counterexample to C6's "raises before transcription begins": with a
failing converter, the conversion error is only observed at the join
point `wav_future.result()`, after `run_transcription` has already run on
the calling thread — the flow records that transcription ran even though
the run fails with the conversion error. -/
theorem conversion_failure_after_transcription_cex :
    (transcribe_flow true false ⟨1, "boom"⟩ [⟨0, 1, "hi"⟩] []).transcription_ran = true ∧
    (transcribe_flow true false ⟨1, "boom"⟩ [⟨0, 1, "hi"⟩] []).result =
      Except.error (some "Audio conversion failed: boom") :=
  ⟨rfl, rfl⟩

/-- C6 (amended): if the conversion tool exits non-zero, the run fails
with an error whose message is built from the tool's last stripped stderr
line, and the temporary waveform file is not left behind; but the error
surfaces at the join point after transcription has run, not before
transcription begins. -/
theorem conversion_failure_spec (conv : ConvInput) (interrupted : Bool)
    (raw : List RawSegment) (speaker_segments : List SpeakerInterval) (line : String)
    (hrc : conv.returncode ≠ 0)
    (hline : lastErrorLine conv.stderr = some line) :
    (transcribe_flow true interrupted conv raw speaker_segments).result =
      Except.error (some ("Audio conversion failed: " ++ line)) ∧
    (transcribe_flow true interrupted conv raw speaker_segments).temp_left = false ∧
    (transcribe_flow true interrupted conv raw speaker_segments).transcription_ran = true := by
  have hmsg : conv_error_message conv.stderr = some ("Audio conversion failed: " ++ line) := by
    rw [conv_error_message, hline]
    rfl
  have hconv : convert_to_wav "temp.wav" conv =
      { result := Except.error (some ("Audio conversion failed: " ++ line)),
        temp_left := false } := by
    rw [convert_to_wav, if_pos hrc, hmsg]
  refine ⟨?_, ?_, ?_⟩ <;> simp [transcribe_flow, hconv]

/-- Witness for C6 (amended) on a two-line stderr. -/
theorem conversion_failure_spec_witness :
    (transcribe_flow true false ⟨1, "e1\ne2"⟩ [⟨0, 1, "hi"⟩] []).result =
      Except.error (some ("Audio conversion failed: " ++ "e2")) ∧
    (transcribe_flow true false ⟨1, "e1\ne2"⟩ [⟨0, 1, "hi"⟩] []).temp_left = false ∧
    (transcribe_flow true false ⟨1, "e1\ne2"⟩ [⟨0, 1, "hi"⟩] []).transcription_ran = true :=
  conversion_failure_spec ⟨1, "e1\ne2"⟩ false [⟨0, 1, "hi"⟩] [] "e2" (by decide) (by decide)

end Senko
